import Mathlib

/-!
Verification of the PassVault credential vault (src/main.cpp).

Strings are modelled as lists of byte values (`List Nat`, each `< 256`);
`time_t` values as `Nat`.  The classes `SecurityManager`, `PasswordAnalyzer`
and `PassVault` are embedded as executable functions; the `PassVault` object
is a record `PassVaultState` and each member function is a state transformer
taking the current time `time(0)` as an explicit argument (and the value of
`rand() % 10000` where the C++ calls `rand()`).  The backing file is the
`fileContent` field; opening the stream is modelled as always succeeding.
-/

/-! ## Definitions -/

/-- One step of `hashPassword`'s loop: `hash = ((hash << 5) + hash) + c` on
`unsigned long` (64 bit), where `c` is a (signed) `char` converted to
`unsigned long`. -/
def hashStep (h c : Nat) : Nat :=
  (h * 33 + (if c < 128 then c else 2 ^ 64 - 256 + c)) % 2 ^ 64

/-- `SecurityManager::hashPassword`: the djb2-style hash value (the decimal
rendering to a string is `decDigits`). -/
def hashPassword (password : List Nat) : Nat :=
  password.foldl hashStep 5381

/-- Digit loop of `std::to_string`, structurally recursive on a fuel bound
(as in core's `Nat.toDigits`); `fuel > n` suffices since `n / 10 < n`. -/
def decDigitsAux : Nat → Nat → List Nat
  | 0, _ => []
  | fuel + 1, n =>
    if n < 10 then [48 + n]
    else decDigitsAux fuel (n / 10) ++ [48 + n % 10]

/-- `std::to_string` on an unsigned integer: the decimal digit bytes. -/
def decDigits (n : Nat) : List Nat :=
  decDigitsAux (n + 1) n

/-- The key stored by `SecurityManager`'s constructor:
`key = hashPassword(masterPassword)` as a decimal string. -/
def hashKey (password : List Nat) : List Nat :=
  decDigits (hashPassword password)

/-- The loop of `xorEncrypt`/`xorDecrypt` starting at position `i`:
`result[i] = data[i] ^ key[i % key.length()]`.  (The key is never empty in
the program: `hashPassword` yields at least one digit.) -/
def xorBytesFrom (key : List Nat) : Nat → List Nat → List Nat
  | _, [] => []
  | i, b :: rest => (b ^^^ key.getD (i % key.length) 0) :: xorBytesFrom key (i + 1) rest

/-- The XOR combining loop over a whole buffer (positions from 0). -/
def xorBytes (data key : List Nat) : List Nat :=
  xorBytesFrom key 0 data

/-- One nibble rendered by `ss << hex`: lowercase hexadecimal digit. -/
def hexDigitChar (n : Nat) : Nat :=
  if n < 10 then 48 + n else 87 + n

/-- `SecurityManager::toHex`: each byte as two lowercase hex digits,
zero-padded (`setw(2)`, `setfill('0')`). -/
def toHex (bs : List Nat) : List Nat :=
  bs.flatMap fun b => [hexDigitChar (b / 16), hexDigitChar (b % 16)]

/-- Whether a byte is a hexadecimal digit accepted by `strtol(..., 16)`. -/
def isHexDigitB (c : Nat) : Bool :=
  decide ((48 ≤ c ∧ c ≤ 57) ∨ (97 ≤ c ∧ c ≤ 102) ∨ (65 ≤ c ∧ c ≤ 70))

/-- Value of a hexadecimal digit byte (0 for non-digits). -/
def hexVal (c : Nat) : Nat :=
  if 48 ≤ c ∧ c ≤ 57 then c - 48
  else if 97 ≤ c ∧ c ≤ 102 then c - 87
  else if 65 ≤ c ∧ c ≤ 70 then c - 55
  else 0

/-- `SecurityManager::fromHex`: take 2-character chunks (`substr(i, 2)`; the
last chunk may be a single character) and parse each with `strtol(..., 16)`,
which reads the longest valid digit run from the front (whitespace or sign
bytes never occur in this program's hex data and are not modelled). -/
def fromHex : List Nat → List Nat
  | [] => []
  | [c] => [if isHexDigitB c then hexVal c else 0]
  | c1 :: c2 :: rest =>
    (if isHexDigitB c1 then
       (if isHexDigitB c2 then hexVal c1 * 16 + hexVal c2 else hexVal c1)
     else 0) :: fromHex rest

/-- `SecurityManager::encrypt` = `xorEncrypt(data, key)` = XOR then `toHex`. -/
def encrypt (key data : List Nat) : List Nat :=
  toHex (xorBytes data key)

/-- `SecurityManager::decrypt` = `xorDecrypt(hexData, key)` = `fromHex` then XOR. -/
def decrypt (key hexData : List Nat) : List Nat :=
  xorBytes (fromHex hexData) key

/-- `PasswordEntry`: one stored credential (string fields as byte lists,
`time_t` timestamps as `Nat`). -/
structure Entry where
  id : List Nat
  website : List Nat
  username : List Nat
  password : List Nat
  category : List Nat
  notes : List Nat
  createdAt : Nat
  lastModified : Nat
deriving DecidableEq

/-- The fields of `PassVault`.  `fileContent` stands for the bytes of the
backing file named by `vaultFile` (stream opening is modelled as always
succeeding); `securityKey` is the key held by the heap-allocated
`SecurityManager` (`none` while `security == nullptr`). -/
structure PassVaultState where
  fileContent : List Nat
  securityKey : Option (List Nat)
  entries : List Entry
  masterPassword : List Nat
  isLocked : Bool
  lastActivity : Nat
  autoLockMinutes : Nat
deriving DecidableEq

/-- The `PassVault` constructor: locked, no `SecurityManager`, default
fields, `autoLockMinutes = 10`, `lastActivity = time(0)`. -/
def mkVault (now : Nat) (content : List Nat) : PassVaultState :=
  { fileContent := content, securityKey := none, entries := [],
    masterPassword := [], isLocked := true, lastActivity := now,
    autoLockMinutes := 10 }

/-- `PassVault::generateId` = `to_string(time(0)) + to_string(rand() % 10000)`;
`r` is the value returned by `rand()`. -/
def generateId (now r : Nat) : List Nat :=
  decDigits now ++ decDigits (r % 10000)

/-- `PassVault::checkAutoLock`: if the threshold is positive and more than
`autoLockMinutes * 60` seconds elapsed since `lastActivity`, lock and report
`true`. -/
def checkAutoLock (now : Nat) (s : PassVaultState) : Bool × PassVaultState :=
  if 0 < s.autoLockMinutes ∧ s.lastActivity + s.autoLockMinutes * 60 < now then
    (true, { s with isLocked := true })
  else (false, s)

/-- `PassVault::initialize`: store the passphrase, build a fresh
`SecurityManager` (deriving the key), unlock, refresh activity. -/
def initVault (now : Nat) (masterPass : List Nat) (s : PassVaultState) :
    Bool × PassVaultState :=
  (true, { s with masterPassword := masterPass,
                  securityKey := some (hashKey masterPass),
                  isLocked := false, lastActivity := now })

/-- `PassVault::lock`: `isLocked = true;` and nothing else. -/
def lock (s : PassVaultState) : PassVaultState :=
  { s with isLocked := true }

/-- `PassVault::unlock`: compare against the stored master passphrase. -/
def unlock (now : Nat) (masterPass : List Nat) (s : PassVaultState) :
    Bool × PassVaultState :=
  if masterPass = s.masterPassword then
    (true, { s with isLocked := false, lastActivity := now })
  else (false, s)

/-- One line written by `PassVault::saveToFile` for one entry (without the
trailing newline): six encrypted fields and the two decimal timestamps,
separated by `'|'` (byte 124). -/
def serEntry (key : List Nat) (e : Entry) : List Nat :=
  encrypt key e.id ++ 124 :: encrypt key e.website ++ 124 :: encrypt key e.username ++
  124 :: encrypt key e.password ++ 124 :: encrypt key e.category ++
  124 :: encrypt key e.notes ++ 124 :: decDigits e.createdAt ++
  124 :: decDigits e.lastModified

/-- The whole file written by `saveToFile`: one newline-terminated line per
entry, in order. -/
def serializeFile (key : List Nat) (entries : List Entry) : List Nat :=
  entries.flatMap fun e => serEntry key e ++ [10]

/-- `PassVault::saveToFile`: rewrite the whole backing file.  Dereferencing a
null `security` pointer is modelled as failure. -/
def saveToFile (s : PassVaultState) : Bool × PassVaultState :=
  match s.securityKey with
  | none => (false, s)
  | some key => (true, { s with fileContent := serializeFile key s.entries })

/-- `std::getline(ss, temp, '|')` splitting: the chunks of a line between
`'|'` delimiters (the final chunk runs to the end of the line). -/
def splitOn (sep : Nat) : List Nat → List (List Nat)
  | [] => [[]]
  | c :: rest =>
    if c = sep then [] :: splitOn sep rest
    else
      match splitOn sep rest with
      | [] => [[c]]
      | t :: ts => (c :: t) :: ts

/-- The lines produced by `while (getline(file, line))`: maximal chunks
between newline bytes; a final unterminated chunk is also a line, and a
trailing newline produces no empty extra line. -/
def getLines : List Nat → List (List Nat)
  | [] => []
  | c :: rest =>
    if c = 10 then [] :: getLines rest
    else
      match getLines rest with
      | [] => [[c]]
      | t :: ts => (c :: t) :: ts

/-- The run of decimal digits read from the front by `stol`, accumulating
onto `acc`. -/
def digitsVal : List Nat → Nat → Nat
  | [], acc => acc
  | c :: rest, acc =>
    if 48 ≤ c ∧ c ≤ 57 then digitsVal rest (acc * 10 + (c - 48)) else acc

/-- `std::stol` on a timestamp token: fails (throws) unless the token starts
with a digit, else the value of the leading digit run (sign and whitespace
prefixes never occur in this program's data and are not modelled). -/
def parseNat : List Nat → Option Nat
  | [] => none
  | c :: rest =>
    if 48 ≤ c ∧ c ≤ 57 then some (digitsVal rest (c - 48)) else none

/-- Parsing of one line by `loadFromFile`'s body: eight `getline(ss, temp, '|')`
tokens, the first six decrypted, the last two through `stol`.  A line with
fewer than eight tokens makes a later `getline` fail, leaving `temp` empty,
and `stol("")` throws; a non-numeric timestamp also throws.  Both are `none`. -/
def parseLine (key : List Nat) (line : List Nat) : Option Entry :=
  match splitOn 124 line with
  | f1 :: f2 :: f3 :: f4 :: f5 :: f6 :: f7 :: f8 :: _ =>
    match parseNat f7, parseNat f8 with
    | some c, some m =>
      some { id := decrypt key f1, website := decrypt key f2,
             username := decrypt key f3, password := decrypt key f4,
             category := decrypt key f5, notes := decrypt key f6,
             createdAt := c, lastModified := m }
    | _, _ => none
  | _ => none

/-- The `while (getline(file, line))` loop of `loadFromFile`: parse each line
in order; a throwing line aborts the whole load (second component `false`). -/
def loadLines (key : List Nat) : List (List Nat) → List Entry × Bool
  | [] => ([], true)
  | l :: ls =>
    match parseLine key l with
    | none => ([], false)
    | some e =>
      let r := loadLines key ls
      (e :: r.1, r.2)

/-- `PassVault::loadFromFile`: clear the entries and rebuild them from the
file, line by line.  A null `security` pointer is modelled as failure. -/
def loadFromFile (s : PassVaultState) : Bool × PassVaultState :=
  match s.securityKey with
  | none => (false, s)
  | some key =>
    let r := loadLines key (getLines s.fileContent)
    (r.2, { s with entries := r.1 })

/-- `PassVault::addEntry`: gate on the auto-lock check and the lock flag,
refresh activity, copy the draft with a generated id and fresh timestamps,
append it, and persist. -/
def addEntry (now r : Nat) (e : Entry) (s : PassVaultState) : Bool × PassVaultState :=
  let p := checkAutoLock now s
  if p.1 || p.2.isLocked then (false, p.2)
  else
    let s1 := { p.2 with lastActivity := now }
    let ne := { e with id := generateId now r, createdAt := now, lastModified := now }
    saveToFile { s1 with entries := s1.entries ++ [ne] }

/-- The `for (auto& e : entries)` loop of `updateEntry`: overwrite the first
entry whose id matches and refresh its `lastModified`; `none` if no match. -/
def updateFirst (id : List Nat) (e : Entry) (now : Nat) : List Entry → Option (List Entry)
  | [] => none
  | x :: rest =>
    if x.id = id then
      some ({ x with
                website := e.website, username := e.username,
                password := e.password, category := e.category,
                notes := e.notes, lastModified := now } :: rest)
    else (updateFirst id e now rest).map (x :: ·)

/-- `PassVault::updateEntry`. -/
def updateEntry (now : Nat) (id : List Nat) (e : Entry) (s : PassVaultState) :
    Bool × PassVaultState :=
  let p := checkAutoLock now s
  if p.1 || p.2.isLocked then (false, p.2)
  else
    let s1 := { p.2 with lastActivity := now }
    match updateFirst id e now s1.entries with
    | some es => saveToFile { s1 with entries := es }
    | none => (false, s1)

/-- `PassVault::deleteEntry`: `remove_if`/`erase` drops every matching entry;
persist only when something was removed. -/
def deleteEntry (now : Nat) (id : List Nat) (s : PassVaultState) : Bool × PassVaultState :=
  let p := checkAutoLock now s
  if p.1 || p.2.isLocked then (false, p.2)
  else
    let s1 := { p.2 with lastActivity := now }
    if s1.entries.any (fun e => e.id = id) then
      saveToFile { s1 with entries := s1.entries.filter (fun e => ¬ e.id = id) }
    else (false, s1)

/-- `::tolower` on a byte (C locale). -/
def toLowerB (b : Nat) : Nat :=
  if 65 ≤ b ∧ b ≤ 90 then b + 32 else b

/-- `transform(..., ::tolower)` over a whole string. -/
def lowerStr (s : List Nat) : List Nat :=
  s.map toLowerB

/-- `hay.find(needle) != string::npos`: substring test. -/
def containsSub (hay needle : List Nat) : Bool :=
  needle.isPrefixOf hay ||
    match hay with
    | [] => false
    | _ :: t => containsSub t needle

/-- The match condition of `searchEntries` for one entry: the lowercased
website or username, or the category as stored, contains the *lowercased*
query. -/
def entryMatches (lowerQuery : List Nat) (e : Entry) : Bool :=
  containsSub (lowerStr e.website) lowerQuery ||
  containsSub (lowerStr e.username) lowerQuery ||
  containsSub e.category lowerQuery

/-- `PassVault::searchEntries`. -/
def searchEntries (now : Nat) (query : List Nat) (s : PassVaultState) :
    List Entry × PassVaultState :=
  let p := checkAutoLock now s
  if p.1 || p.2.isLocked then ([], p.2)
  else
    let s1 := { p.2 with lastActivity := now }
    (s1.entries.filter (entryMatches (lowerStr query)), s1)

/-- `PassVault::getAllEntries`. -/
def getAllEntries (now : Nat) (s : PassVaultState) : List Entry × PassVaultState :=
  let p := checkAutoLock now s
  if p.1 || p.2.isLocked then ([], p.2)
  else
    let s1 := { p.2 with lastActivity := now }
    (s1.entries, s1)

/-- `PassVault::getEntry`: pointer to the first entry with the id, else null. -/
def getEntry (now : Nat) (id : List Nat) (s : PassVaultState) :
    Option Entry × PassVaultState :=
  let p := checkAutoLock now s
  if p.1 || p.2.isLocked then (none, p.2)
  else
    let s1 := { p.2 with lastActivity := now }
    (s1.entries.find? (fun e => e.id = id), s1)

def c4State : PassVaultState :=
  { mkVault 3 [] with masterPassword := [97, 98] }

def c5State : PassVaultState :=
  (initVault 1 [112, 119] (mkVault 0 [])).2

def c6Draft : Entry := ⟨[], [], [], [], [], [], 0, 0⟩

def c6State : PassVaultState :=
  (addEntry 100 7 c6Draft
    (addEntry 100 7 c6Draft (initVault 0 [112, 119] (mkVault 0 [])).2).2).2

def c3Draft : Entry := ⟨[], [], [], [], [], [], 0, 0⟩

def c3Entry : Entry := ⟨[97], [119, 119], [117], [112, 119], [87], [110], 3, 4⟩

/-- A Locked vault whose backing file holds one valid saved entry but whose
in-memory entry set is empty. -/
def c3Locked : PassVaultState :=
  lock { (saveToFile { (initVault 0 [112, 119] (mkVault 0 [120])).2 with
                         entries := [c3Entry] }).2 with
           entries := [] }

/-- All fields of an entry consist of byte values. -/
def entryBytesOk (e : Entry) : Prop :=
  (∀ b ∈ e.id, b < 256) ∧ (∀ b ∈ e.website, b < 256) ∧ (∀ b ∈ e.username, b < 256) ∧
  (∀ b ∈ e.password, b < 256) ∧ (∀ b ∈ e.category, b < 256) ∧ (∀ b ∈ e.notes, b < 256)

instance (e : Entry) : Decidable (entryBytesOk e) := by
  unfold entryBytesOk
  infer_instance

def c2Entry : Entry :=
  ⟨[105, 100], [119, 119, 119], [117], [112], [99], [110, 111, 116, 101], 11, 12⟩

def c2State : PassVaultState :=
  { (initVault 0 [109, 112] (mkVault 0 [])).2 with entries := [c2Entry] }

/-- The match predicate the claim states: the category is compared against
the original query, case-sensitively.  (Definition follows the claim's words,
to be compared against `entryMatches`, which follows the code.) -/
def specMatches (query : List Nat) (e : Entry) : Bool :=
  containsSub (lowerStr e.website) (lowerStr query) ||
  containsSub (lowerStr e.username) (lowerStr query) ||
  containsSub e.category query

def c7Entry : Entry := ⟨[105], [120], [121], [112], [66, 97, 110, 107], [], 0, 0⟩

def c7State : PassVaultState :=
  { (initVault 0 [112, 119] (mkVault 0 [])).2 with entries := [c7Entry] }

/-- `isupper` on a byte (C locale). -/
def isUpperB (c : Nat) : Bool := decide (65 ≤ c ∧ c ≤ 90)

/-- `islower` on a byte (C locale). -/
def isLowerB (c : Nat) : Bool := decide (97 ≤ c ∧ c ≤ 122)

/-- `isdigit` on a byte (C locale). -/
def isDigitB (c : Nat) : Bool := decide (48 ≤ c ∧ c ≤ 57)

/-- `ispunct` on a byte (C locale): the four ASCII punctuation ranges. -/
def isPunctB (c : Nat) : Bool :=
  decide ((33 ≤ c ∧ c ≤ 47) ∨ (58 ≤ c ∧ c ≤ 64) ∨ (91 ≤ c ∧ c ≤ 96) ∨ (123 ≤ c ∧ c ≤ 126))

/-- The four character-class flags set by `analyzePassword`'s scan loop. -/
structure CharFlags where
  hasUpper : Bool
  hasLower : Bool
  hasDigit : Bool
  hasSpecial : Bool

/-- One iteration of the `for (char c : password)` scan. -/
def scanStep (f : CharFlags) (c : Nat) : CharFlags :=
  { hasUpper := f.hasUpper || isUpperB c,
    hasLower := f.hasLower || isLowerB c,
    hasDigit := f.hasDigit || isDigitB c,
    hasSpecial := f.hasSpecial || isPunctB c }

/-- The scan loop over the whole password. -/
def scanFlags (password : List Nat) : CharFlags :=
  password.foldl scanStep ⟨false, false, false, false⟩

/-- The score and strength fields of `PasswordAnalyzer::PasswordStrength`.
(The `entropy` and `feedback` fields are not needed by any claim and are
not modelled.) -/
structure PasswordStrength where
  score : Nat
  strength : String
deriving DecidableEq

/-- `PasswordAnalyzer::analyzePassword`: scan the character classes, add up
the score contributions in order, and bucket the strength string. -/
def analyzePassword (password : List Nat) : PasswordStrength :=
  let flags := scanFlags password
  let score :=
    (if 8 ≤ password.length then 20 else 0) +
    (if 12 ≤ password.length then 15 else 0) +
    (if 16 ≤ password.length then 15 else 0) +
    (if flags.hasUpper then 15 else 0) +
    (if flags.hasLower then 15 else 0) +
    (if flags.hasDigit then 10 else 0) +
    (if flags.hasSpecial then 10 else 0)
  { score := score,
    strength :=
      if score < 40 then "Weak"
      else if score < 60 then "Fair"
      else if score < 75 then "Good"
      else if score < 90 then "Strong"
      else "Very Strong" }

/-- The strength buckets as the spec words them: `<40` Weak, `<60` Fair,
`<75` Good, `<90` Strong, otherwise Very Strong ("VeryStrong"). -/
def bucketSpec (score : Nat) : String :=
  if score < 40 then "Weak"
  else if score < 60 then "Fair"
  else if score < 75 then "Good"
  else if score < 90 then "Strong"
  else "Very Strong"

/-- `passwordCount[entry.password]++`: bump one password's tally in the
count map (modelled as an association list; `std::map` ordering only affects
iteration order, which the summed result does not depend on). -/
def bumpCount (m : List (List Nat × Nat)) (p : List Nat) : List (List Nat × Nat) :=
  match m with
  | [] => [(p, 1)]
  | (q, n) :: rest => if q = p then (q, n + 1) :: rest else (q, n) :: bumpCount rest p

/-- One iteration of `getHealthReport`'s entry loop, accumulating
(weak count, password count map, old count). -/
def healthStep (now : Nat) (acc : Nat × List (List Nat × Nat) × Nat) (e : Entry) :
    Nat × List (List Nat × Nat) × Nat :=
  (acc.1 + (if (analyzePassword e.password).score < 60 then 1 else 0),
   bumpCount acc.2.1 e.password,
   acc.2.2 + (if e.lastModified + 15552000 < now then 1 else 0))

/-- The final loop of `getHealthReport`: sum the counts of the passwords
occurring more than once (`if (p.second > 1) report["reused"] += p.second`). -/
def sumReused (m : List (List Nat × Nat)) : Nat :=
  m.foldl (fun acc p => if 1 < p.2 then acc + p.2 else acc) 0

/-- The report record `{total, weak, reused, old}`. -/
structure HealthReport where
  total : Nat
  weak : Nat
  reused : Nat
  old : Nat
deriving DecidableEq

/-- `PassVault::getHealthReport` (no lock gate in the source).  The `old`
test `difftime(now, lastModified) / (30*24*60*60) > 6` on reals is exactly
`now - lastModified > 15552000`. -/
def getHealthReport (now : Nat) (s : PassVaultState) : HealthReport :=
  let acc := s.entries.foldl (healthStep now) (0, [], 0)
  { total := s.entries.length, weak := acc.1,
    reused := sumReused acc.2.1, old := acc.2.2 }

/-- The distinct values of a list, in first-occurrence order (the key set of
the count map). -/
def distinctVals : List (List Nat) → List (List Nat)
  | [] => []
  | p :: rest => p :: (distinctVals rest).filter (fun q => decide (¬ q = p))

/-- C8's spec quantity: the sum, over all distinct password values occurring
more than once, of their occurrence counts.  (Definition follows the claim's
words, to be compared against the code's `sumReused` of the count map.) -/
def reusedSpec (ps : List (List Nat)) : Nat :=
  (((distinctVals ps).filter (fun p => decide (1 < ps.count p))).map
    (fun p => ps.count p)).sum

/-- The contents of the count map after counting the list `ps`. -/
def countsOf (ps : List (List Nat)) : List (List Nat × Nat) :=
  (distinctVals ps).map (fun p => (p, ps.count p))

def c8Entries : List Entry :=
  [⟨[49], [], [], [97, 98, 99, 49, 50, 51], [], [], 0, 0⟩,
   ⟨[50], [], [], [97, 98, 99, 49, 50, 51], [], [], 0, 0⟩,
   ⟨[51], [], [], [84, 114, 48, 117, 98, 52, 100, 111, 114, 38, 57, 33, 88, 121, 90],
    [], [], 0, 0⟩]

def c8State : PassVaultState :=
  { mkVault 0 [] with entries := c8Entries }

/-! ## Theorems -/

theorem xorBytesFrom_xorBytesFrom (key : List Nat) :
    ∀ (i : Nat) (data : List Nat), xorBytesFrom key i (xorBytesFrom key i data) = data := by
  intro i data
  induction data generalizing i with
  | nil => rfl
  | cons b rest ih =>
    simp [xorBytesFrom, ih, Nat.xor_assoc]

theorem getD_lt_256 (key : List Nat) (hk : ∀ k ∈ key, k < 256) (j : Nat) :
    key.getD j 0 < 256 := by
  by_cases h : j < key.length
  · rw [List.getD_eq_getElem key 0 h]
    exact hk _ (List.getElem_mem h)
  · rw [List.getD_eq_default key 0 (by omega)]
    omega

theorem mem_xorBytesFrom_lt (key : List Nat) (hk : ∀ k ∈ key, k < 256) :
    ∀ (i : Nat) (data : List Nat), (∀ b ∈ data, b < 256) →
      ∀ b ∈ xorBytesFrom key i data, b < 256 := by
  intro i data
  induction data generalizing i with
  | nil => intro _ b hb; simp [xorBytesFrom] at hb
  | cons a rest ih =>
    intro hd b hb
    simp only [xorBytesFrom, List.mem_cons] at hb
    rcases hb with hb | hb
    · subst hb
      have h1 : a < 2 ^ 8 := hd a (by simp)
      have h2 : key.getD (i % key.length) 0 < 2 ^ 8 := getD_lt_256 key hk _
      exact Nat.xor_lt_two_pow h1 h2
    · exact ih (i + 1) (fun x hx => hd x (by simp [hx])) b hb

theorem hexVal_hexDigitChar (n : Nat) (h : n < 16) :
    hexVal (hexDigitChar n) = n := by
  unfold hexVal hexDigitChar
  split_ifs <;> omega

theorem isHexDigitB_hexDigitChar (n : Nat) (h : n < 16) :
    isHexDigitB (hexDigitChar n) = true := by
  unfold isHexDigitB hexDigitChar
  split_ifs <;> simp <;> omega

theorem hexDigitChar_range (n : Nat) (h : n < 16) :
    (48 ≤ hexDigitChar n ∧ hexDigitChar n ≤ 57) ∨
    (97 ≤ hexDigitChar n ∧ hexDigitChar n ≤ 102) := by
  unfold hexDigitChar
  split_ifs <;> omega

theorem fromHex_toHex : ∀ bs : List Nat, (∀ b ∈ bs, b < 256) → fromHex (toHex bs) = bs := by
  intro bs
  induction bs with
  | nil => intro _; rfl
  | cons b rest ih =>
    intro hb
    have hblt : b < 256 := hb b (by simp)
    have hdiv : b / 16 < 16 := by omega
    have hmod : b % 16 < 16 := by omega
    have htail : fromHex (toHex rest) = rest := ih (fun x hx => hb x (by simp [hx]))
    show fromHex (hexDigitChar (b / 16) :: hexDigitChar (b % 16) :: toHex rest) = b :: rest
    unfold fromHex
    rw [isHexDigitB_hexDigitChar _ hdiv, isHexDigitB_hexDigitChar _ hmod]
    simp only [if_true]
    rw [hexVal_hexDigitChar _ hdiv, hexVal_hexDigitChar _ hmod, htail]
    congr 1
    omega

theorem toHex_length (bs : List Nat) : (toHex bs).length = 2 * bs.length := by
  induction bs with
  | nil => rfl
  | cons b rest ih => simp [toHex] at ih ⊢; omega

theorem mem_toHex_range (bs : List Nat) (hb : ∀ b ∈ bs, b < 256) :
    ∀ c ∈ toHex bs, (48 ≤ c ∧ c ≤ 57) ∨ (97 ≤ c ∧ c ≤ 102) := by
  induction bs with
  | nil => intro c hc; simp [toHex] at hc
  | cons b rest ih =>
    intro c hc
    have hblt : b < 256 := hb b (by simp)
    simp only [toHex, List.flatMap_cons, List.mem_append, List.mem_cons,
      List.not_mem_nil, or_false] at hc
    rcases hc with (hc | hc) | hc
    · subst hc; exact hexDigitChar_range _ (by omega)
    · subst hc; exact hexDigitChar_range _ (by omega)
    · exact ih (fun x hx => hb x (by simp [hx])) c hc

theorem xorBytesFrom_length (key : List Nat) :
    ∀ (i : Nat) (data : List Nat), (xorBytesFrom key i data).length = data.length := by
  intro i data
  induction data generalizing i with
  | nil => rfl
  | cons b rest ih => simp [xorBytesFrom, ih]

theorem decrypt_encrypt (key data : List Nat)
    (hk : ∀ k ∈ key, k < 256) (hd : ∀ b ∈ data, b < 256) :
    decrypt key (encrypt key data) = data := by
  unfold decrypt encrypt xorBytes
  rw [fromHex_toHex _ (mem_xorBytesFrom_lt key hk 0 data hd)]
  exact xorBytesFrom_xorBytesFrom key 0 data

theorem decDigitsAux_mem :
    ∀ fuel n : Nat, n < fuel → ∀ c ∈ decDigitsAux fuel n, 48 ≤ c ∧ c ≤ 57 := by
  intro fuel
  induction fuel with
  | zero => intro n h; omega
  | succ fuel ih =>
    intro n h
    unfold decDigitsAux
    split_ifs with h10
    · intro c hc
      simp at hc
      omega
    · intro c hc
      rw [List.mem_append] at hc
      rcases hc with hc | hc
      · refine ih (n / 10) ?_ c hc
        have := Nat.div_lt_self (n := n) (by omega) (show 1 < 10 by omega)
        omega
      · simp at hc
        omega

theorem decDigits_mem (n : Nat) : ∀ c ∈ decDigits n, 48 ≤ c ∧ c ≤ 57 :=
  decDigitsAux_mem (n + 1) n (by omega)

theorem decDigits_ne_nil (n : Nat) : decDigits n ≠ [] := by
  unfold decDigits decDigitsAux
  split_ifs <;> simp

theorem hashKey_mem (pass : List Nat) : ∀ c ∈ hashKey pass, 48 ≤ c ∧ c ≤ 57 :=
  decDigits_mem (hashPassword pass)

theorem hashKey_lt_256 (pass : List Nat) : ∀ c ∈ hashKey pass, c < 256 := by
  intro c hc
  have := hashKey_mem pass c hc
  omega

/-- C1: for every key produced by the key derivation (`hashPassword` of any
passphrase) and every plaintext byte string, `decrypt(encrypt(text)) = text`;
the output of `encrypt` consists only of lowercase hexadecimal digit bytes
(`0`–`9`, `a`–`f`) and has length exactly twice the plaintext's byte length. -/
theorem C1_encrypt_decrypt_roundtrip (pass data : List Nat)
    (hd : ∀ b ∈ data, b < 256) :
    decrypt (hashKey pass) (encrypt (hashKey pass) data) = data ∧
    (∀ c ∈ encrypt (hashKey pass) data, (48 ≤ c ∧ c ≤ 57) ∨ (97 ≤ c ∧ c ≤ 102)) ∧
    (encrypt (hashKey pass) data).length = 2 * data.length := by
  refine ⟨decrypt_encrypt _ _ (hashKey_lt_256 pass) hd, ?_, ?_⟩
  · exact mem_toHex_range _ (mem_xorBytesFrom_lt _ (hashKey_lt_256 pass) 0 data hd)
  · unfold encrypt
    rw [toHex_length]
    unfold xorBytes
    rw [xorBytesFrom_length]

theorem C1_witness :
    decrypt (hashKey [115, 101, 99]) (encrypt (hashKey [115, 101, 99]) [104, 105, 0, 255]) =
      [104, 105, 0, 255] ∧
    (∀ c ∈ encrypt (hashKey [115, 101, 99]) [104, 105, 0, 255],
      (48 ≤ c ∧ c ≤ 57) ∨ (97 ≤ c ∧ c ≤ 102)) ∧
    (encrypt (hashKey [115, 101, 99]) [104, 105, 0, 255]).length = 2 * 4 :=
  C1_encrypt_decrypt_roundtrip [115, 101, 99] [104, 105, 0, 255] (by decide)

/-- C10: on a freshly constructed vault on which `initialize` was never
called, `unlock("")` succeeds and unlocks: the stored master passphrase
defaults to the empty string, and `unlock` never requires a derived key. -/
theorem C10_fresh_unlock_empty (now now2 : Nat) (content : List Nat) :
    (unlock now2 [] (mkVault now content)).1 = true ∧
    (unlock now2 [] (mkVault now content)).2.isLocked = false ∧
    (mkVault now content).securityKey = none := by
  refine ⟨?_, ?_, rfl⟩ <;> simp [unlock, mkVault]

/-- C4: while Locked, `unlock(p)` returns `true` and moves to Unlocked
exactly when `p` is the stored master passphrase; for any other string it
returns `false` and the whole state is unchanged. -/
theorem C4_unlock_iff (s : PassVaultState) (p : List Nat) (now : Nat)
    (h : s.isLocked = true) :
    (((unlock now p s).1 = true ∧ (unlock now p s).2.isLocked = false) ↔
      p = s.masterPassword) ∧
    (p ≠ s.masterPassword → unlock now p s = (false, s)) := by
  unfold unlock
  by_cases hp : p = s.masterPassword
  · simp [hp]
  · simp [hp, h]

theorem C4_unlock_iff_witness :
    (((unlock 5 [97, 98] c4State).1 = true ∧
      (unlock 5 [97, 98] c4State).2.isLocked = false) ↔
      [97, 98] = c4State.masterPassword) ∧
    ([97, 98] ≠ c4State.masterPassword → unlock 5 [97, 98] c4State = (false, c4State)) :=
  C4_unlock_iff c4State [97, 98] 5 (by decide)

/-- C5 counterexample: after `lock()` on an initialized vault the Locked
state still holds the derived key (`lock` only sets `isLocked`; the
`SecurityManager` and the stored passphrase survive), refuting "lock()
discards the derived key from memory". -/
theorem C5_counterexample :
    (lock c5State).isLocked = true ∧
    (lock c5State).securityKey = some (hashKey [112, 119]) ∧
    ¬ (lock c5State).securityKey = none ∧
    (lock c5State).masterPassword = [112, 119] := by
  refine ⟨rfl, rfl, ?_, rfl⟩
  decide

/-- C5 amended: `lock()` unconditionally sets the state to Locked but
retains the derived key and the stored master passphrase (and everything
else) in memory. -/
theorem C5_lock_retains_key (s : PassVaultState) :
    (lock s).isLocked = true ∧
    (lock s).securityKey = s.securityKey ∧
    (lock s).masterPassword = s.masterPassword ∧
    (lock s).entries = s.entries :=
  ⟨rfl, rfl, rfl, rfl⟩

/-- C6: `generateId` is `to_string(time(0)) + to_string(rand() % 10000)` with
no collision check, so two `addEntry` calls in the same second whose `rand()`
values agree modulo 10000 store two entries with the same id. -/
theorem C6_id_collision :
    c6State.entries.map Entry.id = [[49, 48, 48, 55], [49, 48, 48, 55]] ∧
    ¬ c6State.entries.Pairwise (fun a b => ¬ a.id = b.id) := by
  constructor
  · decide
  · decide

theorem checkAutoLock_entries (now : Nat) (s : PassVaultState) :
    (checkAutoLock now s).2.entries = s.entries := by
  unfold checkAutoLock
  split <;> rfl

theorem checkAutoLock_fileContent (now : Nat) (s : PassVaultState) :
    (checkAutoLock now s).2.fileContent = s.fileContent := by
  unfold checkAutoLock
  split <;> rfl

/-- C3 amended: the six entry operations (`addEntry`, `updateEntry`,
`deleteEntry`, `searchEntries`, `getAllEntries`, `getEntry`) first perform
the lazy auto-lock check and, if the state is then Locked (including a
transition caused by that check), fail with the vault-locked outcome
(`false` / empty list / null) without touching the entry set or the backing
store; `saveToFile` and `loadFromFile`, however, perform no lock check at
all (see `C3_counterexample`). -/
theorem C3_locked_gate (now r : Nat) (i query : List Nat) (e : Entry)
    (s : PassVaultState)
    (h : ((checkAutoLock now s).1 || (checkAutoLock now s).2.isLocked) = true) :
    addEntry now r e s = (false, (checkAutoLock now s).2) ∧
    updateEntry now i e s = (false, (checkAutoLock now s).2) ∧
    deleteEntry now i s = (false, (checkAutoLock now s).2) ∧
    searchEntries now query s = ([], (checkAutoLock now s).2) ∧
    getAllEntries now s = ([], (checkAutoLock now s).2) ∧
    getEntry now i s = (none, (checkAutoLock now s).2) ∧
    (checkAutoLock now s).2.entries = s.entries ∧
    (checkAutoLock now s).2.fileContent = s.fileContent := by
  refine ⟨?_, ?_, ?_, ?_, ?_, ?_, checkAutoLock_entries now s, checkAutoLock_fileContent now s⟩
  · simp [addEntry, h]
  · simp [updateEntry, h]
  · simp [deleteEntry, h]
  · simp [searchEntries, h]
  · simp [getAllEntries, h]
  · simp [getEntry, h]

theorem C3_locked_gate_witness :
    addEntry 5 0 c3Draft c3Locked = (false, (checkAutoLock 5 c3Locked).2) :=
  (C3_locked_gate 5 0 [] [] c3Draft c3Locked (by decide)).1

/-- C3 counterexample: a concrete Locked vault on which `saveToFile` does not
fail with a vault-locked outcome: it returns `true` and rewrites the backing
store; `loadFromFile` likewise returns `true` and replaces the in-memory
entry set while Locked.  This refutes the claim for the `save`/`load`
operations (the other six are gated, see `C3_locked_gate`). -/
theorem C3_counterexample :
    c3Locked.isLocked = true ∧
    (saveToFile c3Locked).1 = true ∧
    ¬ (saveToFile c3Locked).2.fileContent = c3Locked.fileContent ∧
    (loadFromFile c3Locked).1 = true ∧
    ¬ (loadFromFile c3Locked).2.entries = c3Locked.entries := by
  refine ⟨rfl, rfl, ?_, ?_, ?_⟩ <;> decide

theorem splitOn_cons_eq (sep c : Nat) (rest : List Nat) :
    splitOn sep (c :: rest) =
      if c = sep then [] :: splitOn sep rest
      else
        match splitOn sep rest with
        | [] => [[c]]
        | t :: ts => (c :: t) :: ts := rfl

theorem getLines_cons_eq (c : Nat) (rest : List Nat) :
    getLines (c :: rest) =
      if c = 10 then [] :: getLines rest
      else
        match getLines rest with
        | [] => [[c]]
        | t :: ts => (c :: t) :: ts := rfl

theorem splitOn_not_mem (sep : Nat) : ∀ a : List Nat, sep ∉ a → splitOn sep a = [a] := by
  intro a
  induction a with
  | nil => intro _; rfl
  | cons c rest ih =>
    intro h
    have h1 : ¬ c = sep := fun hh => h (by rw [hh]; exact List.mem_cons_self sep rest)
    have h2 : sep ∉ rest := fun hh => h (List.mem_cons_of_mem c hh)
    rw [splitOn_cons_eq, if_neg h1, ih h2]

theorem splitOn_append (sep : Nat) : ∀ a b : List Nat, sep ∉ a →
    splitOn sep (a ++ sep :: b) = a :: splitOn sep b := by
  intro a
  induction a with
  | nil =>
    intro b _
    rw [List.nil_append, splitOn_cons_eq, if_pos rfl]
  | cons c rest ih =>
    intro b h
    have h1 : ¬ c = sep := fun hh => h (by rw [hh]; exact List.mem_cons_self sep rest)
    have h2 : sep ∉ rest := fun hh => h (List.mem_cons_of_mem c hh)
    rw [List.cons_append, splitOn_cons_eq, if_neg h1, ih b h2]

theorem getLines_append : ∀ l rest : List Nat, 10 ∉ l →
    getLines (l ++ 10 :: rest) = l :: getLines rest := by
  intro l
  induction l with
  | nil =>
    intro rest _
    rw [List.nil_append, getLines_cons_eq, if_pos rfl]
  | cons c cs ih =>
    intro rest h
    have h1 : ¬ c = 10 := fun hh => h (by rw [hh]; exact List.mem_cons_self 10 cs)
    have h2 : (10 : Nat) ∉ cs := fun hh => h (List.mem_cons_of_mem c hh)
    rw [List.cons_append, getLines_cons_eq, if_neg h1, ih rest h2]

theorem mem_encrypt_range (key data : List Nat) (hk : ∀ k ∈ key, k < 256)
    (hd : ∀ b ∈ data, b < 256) :
    ∀ c ∈ encrypt key data, (48 ≤ c ∧ c ≤ 57) ∨ (97 ≤ c ∧ c ≤ 102) :=
  mem_toHex_range _ (mem_xorBytesFrom_lt key hk 0 data hd)

theorem encrypt_no_bar (key data : List Nat) (hk : ∀ k ∈ key, k < 256)
    (hd : ∀ b ∈ data, b < 256) : (124 : Nat) ∉ encrypt key data := by
  intro hmem
  rcases mem_encrypt_range key data hk hd _ hmem with h | h <;> omega

theorem decDigits_no_bar (n : Nat) : (124 : Nat) ∉ decDigits n := by
  intro hmem
  have := decDigits_mem n _ hmem
  omega

theorem serEntry_byte (key : List Nat) (e : Entry) (hk : ∀ k ∈ key, k < 256)
    (he : entryBytesOk e) :
    ∀ c ∈ serEntry key e, (48 ≤ c ∧ c ≤ 57) ∨ (97 ≤ c ∧ c ≤ 102) ∨ c = 124 := by
  obtain ⟨h1, h2, h3, h4, h5, h6⟩ := he
  intro c hc
  have henc : ∀ f : List Nat, (∀ b ∈ f, b < 256) → c ∈ encrypt key f →
      (48 ≤ c ∧ c ≤ 57) ∨ (97 ≤ c ∧ c ≤ 102) ∨ c = 124 := by
    intro f hf hcf
    rcases mem_encrypt_range key f hk hf c hcf with h | h
    · exact Or.inl h
    · exact Or.inr (Or.inl h)
  have hdec : ∀ n : Nat, c ∈ decDigits n →
      (48 ≤ c ∧ c ≤ 57) ∨ (97 ≤ c ∧ c ≤ 102) ∨ c = 124 := by
    intro n hcn
    exact Or.inl (decDigits_mem n c hcn)
  simp only [serEntry, List.mem_append, List.mem_cons, or_assoc] at hc
  rcases hc with hc|hc|hc|hc|hc|hc|hc|hc|hc|hc|hc|hc|hc|hc|hc
  exacts [henc _ h1 hc, by omega, henc _ h2 hc, by omega, henc _ h3 hc, by omega,
    henc _ h4 hc, by omega, henc _ h5 hc, by omega, henc _ h6 hc, by omega,
    hdec _ hc, by omega, hdec _ hc]

theorem serEntry_no_newline (key : List Nat) (e : Entry) (hk : ∀ k ∈ key, k < 256)
    (he : entryBytesOk e) : (10 : Nat) ∉ serEntry key e := by
  intro hmem
  rcases serEntry_byte key e hk he 10 hmem with h | h | h <;> omega

theorem splitOn_serEntry (key : List Nat) (e : Entry) (hk : ∀ k ∈ key, k < 256)
    (he : entryBytesOk e) :
    splitOn 124 (serEntry key e) =
      [encrypt key e.id, encrypt key e.website, encrypt key e.username,
       encrypt key e.password, encrypt key e.category, encrypt key e.notes,
       decDigits e.createdAt, decDigits e.lastModified] := by
  obtain ⟨h1, h2, h3, h4, h5, h6⟩ := he
  unfold serEntry
  simp only [List.cons_append, List.append_assoc]
  rw [splitOn_append 124 _ _ (encrypt_no_bar key e.id hk h1),
      splitOn_append 124 _ _ (encrypt_no_bar key e.website hk h2),
      splitOn_append 124 _ _ (encrypt_no_bar key e.username hk h3),
      splitOn_append 124 _ _ (encrypt_no_bar key e.password hk h4),
      splitOn_append 124 _ _ (encrypt_no_bar key e.category hk h5),
      splitOn_append 124 _ _ (encrypt_no_bar key e.notes hk h6),
      splitOn_append 124 _ _ (decDigits_no_bar e.createdAt),
      splitOn_not_mem 124 _ (decDigits_no_bar e.lastModified)]

theorem digitsVal_append (c : Nat) (hc : 48 ≤ c ∧ c ≤ 57) :
    ∀ ds : List Nat, (∀ d ∈ ds, 48 ≤ d ∧ d ≤ 57) → ∀ acc : Nat,
      digitsVal (ds ++ [c]) acc = digitsVal ds acc * 10 + (c - 48) := by
  intro ds
  induction ds with
  | nil =>
    intro _ acc
    show digitsVal [c] acc = digitsVal [] acc * 10 + (c - 48)
    unfold digitsVal
    rw [if_pos hc]
    rfl
  | cons d rest ih =>
    intro hds acc
    have hd : 48 ≤ d ∧ d ≤ 57 := hds d (by simp)
    show digitsVal (d :: (rest ++ [c])) acc = digitsVal (d :: rest) acc * 10 + (c - 48)
    unfold digitsVal
    rw [if_pos hd, if_pos hd, ih (fun x hx => hds x (by simp [hx]))]

theorem parseNat_decDigitsAux :
    ∀ fuel n : Nat, n < fuel → parseNat (decDigitsAux fuel n) = some n := by
  intro fuel
  induction fuel with
  | zero => intro n h; omega
  | succ fuel ih =>
    intro n h
    unfold decDigitsAux
    split_ifs with h10
    · show (if 48 ≤ 48 + n ∧ 48 + n ≤ 57 then some (digitsVal [] (48 + n - 48)) else none) =
        some n
      rw [if_pos (by omega)]
      show some (48 + n - 48) = some n
      congr 1
      omega
    · have hdivlt : n / 10 < n := Nat.div_lt_self (by omega) (by omega)
      have hfu : n / 10 < fuel := by omega
      have hrec := ih (n / 10) hfu
      cases hds : decDigitsAux fuel (n / 10) with
      | nil => rw [hds] at hrec; simp [parseNat] at hrec
      | cons c0 cs =>
        rw [hds] at hrec
        have hc0 : 48 ≤ c0 ∧ c0 ≤ 57 :=
          decDigitsAux_mem fuel (n / 10) hfu c0 (by rw [hds]; simp)
        have hcs : ∀ d ∈ cs, 48 ≤ d ∧ d ≤ 57 := fun d hd =>
          decDigitsAux_mem fuel (n / 10) hfu d (by rw [hds]; simp [hd])
        have hrec2 : (if 48 ≤ c0 ∧ c0 ≤ 57 then some (digitsVal cs (c0 - 48)) else none) =
            some (n / 10) := hrec
        rw [if_pos hc0] at hrec2
        have hval : digitsVal cs (c0 - 48) = n / 10 := Option.some.inj hrec2
        show (if 48 ≤ c0 ∧ c0 ≤ 57 then
            some (digitsVal (cs ++ [48 + n % 10]) (c0 - 48)) else none) = some n
        rw [if_pos hc0, digitsVal_append (48 + n % 10) (by omega) cs hcs, hval]
        congr 1
        omega

theorem parseNat_decDigits (n : Nat) : parseNat (decDigits n) = some n :=
  parseNat_decDigitsAux (n + 1) n (by omega)

theorem parseLine_serEntry (key : List Nat) (e : Entry) (hk : ∀ k ∈ key, k < 256)
    (he : entryBytesOk e) :
    parseLine key (serEntry key e) = some e := by
  obtain ⟨h1, h2, h3, h4, h5, h6⟩ := he
  unfold parseLine
  rw [splitOn_serEntry key e hk ⟨h1, h2, h3, h4, h5, h6⟩]
  simp only [parseNat_decDigits, decrypt_encrypt key e.id hk h1,
    decrypt_encrypt key e.website hk h2, decrypt_encrypt key e.username hk h3,
    decrypt_encrypt key e.password hk h4, decrypt_encrypt key e.category hk h5,
    decrypt_encrypt key e.notes hk h6]

theorem getLines_serializeFile (key : List Nat) (hk : ∀ k ∈ key, k < 256) :
    ∀ es : List Entry, (∀ e ∈ es, entryBytesOk e) →
      getLines (serializeFile key es) = es.map (serEntry key) := by
  intro es
  induction es with
  | nil => intro _; rfl
  | cons e rest ih =>
    intro hok
    show getLines ((serEntry key e ++ [10]) ++ serializeFile key rest) =
      serEntry key e :: rest.map (serEntry key)
    rw [List.append_assoc, List.singleton_append,
      getLines_append _ _ (serEntry_no_newline key e hk (hok e (by simp))),
      ih (fun x hx => hok x (by simp [hx]))]

theorem loadLines_serEntry (key : List Nat) (hk : ∀ k ∈ key, k < 256) :
    ∀ es : List Entry, (∀ e ∈ es, entryBytesOk e) →
      loadLines key (es.map (serEntry key)) = (es, true) := by
  intro es
  induction es with
  | nil => intro _; rfl
  | cons e rest ih =>
    intro hok
    show loadLines key (serEntry key e :: rest.map (serEntry key)) = (e :: rest, true)
    unfold loadLines
    rw [parseLine_serEntry key e hk (hok e (by simp)), ih (fun x hx => hok x (by simp [hx]))]

/-- C2: if `save()` succeeds then a `load()` of the data it wrote, with the
same derived key, succeeds and reconstructs an entry set equal (all fields,
all entries, same order) to the set before saving. -/
theorem C2_save_load_roundtrip (pass : List Nat) (s : PassVaultState)
    (hkey : s.securityKey = some (hashKey pass))
    (hok : ∀ e ∈ s.entries, entryBytesOk e) :
    (saveToFile s).1 = true ∧
    (loadFromFile (saveToFile s).2).1 = true ∧
    (loadFromFile (saveToFile s).2).2.entries = s.entries := by
  have hklt : ∀ k ∈ hashKey pass, k < 256 := hashKey_lt_256 pass
  have hsave : saveToFile s =
      (true, { s with fileContent := serializeFile (hashKey pass) s.entries }) := by
    unfold saveToFile
    rw [hkey]
  rw [hsave]
  have hload : loadFromFile { s with fileContent := serializeFile (hashKey pass) s.entries } =
      (true, { s with fileContent := serializeFile (hashKey pass) s.entries,
                      entries := s.entries }) := by
    unfold loadFromFile
    show (match s.securityKey with
      | none => _
      | some key => _) = _
    rw [hkey]
    simp only [getLines_serializeFile (hashKey pass) hklt s.entries hok,
      loadLines_serEntry (hashKey pass) hklt s.entries hok]
  rw [hload]
  exact ⟨rfl, rfl, rfl⟩

theorem C2_save_load_roundtrip_witness :
    (saveToFile c2State).1 = true ∧
    (loadFromFile (saveToFile c2State).2).1 = true ∧
    (loadFromFile (saveToFile c2State).2).2.entries = c2State.entries :=
  C2_save_load_roundtrip [109, 112] c2State (by decide) (by decide)

theorem isPrefixOf_iff : ∀ needle hay : List Nat,
    needle.isPrefixOf hay = true ↔ ∃ t, hay = needle ++ t := by
  intro needle
  induction needle with
  | nil =>
    intro hay
    simp [List.isPrefixOf]
  | cons a as ih =>
    intro hay
    cases hay with
    | nil => simp [List.isPrefixOf]
    | cons b bs =>
      simp only [List.isPrefixOf, Bool.and_eq_true, beq_iff_eq, List.cons_append, ih bs]
      constructor
      · rintro ⟨rfl, t, rfl⟩
        exact ⟨t, rfl⟩
      · rintro ⟨t, ht⟩
        injection ht with h1 h2
        exact ⟨h1.symm, t, h2⟩

theorem containsSub_nil_eq (needle : List Nat) :
    containsSub [] needle = (needle.isPrefixOf [] || false) := rfl

theorem containsSub_cons_eq (c : Nat) (rest needle : List Nat) :
    containsSub (c :: rest) needle =
      (needle.isPrefixOf (c :: rest) || containsSub rest needle) := rfl

theorem containsSub_iff (hay needle : List Nat) :
    containsSub hay needle = true ↔ ∃ p q, hay = p ++ needle ++ q := by
  induction hay with
  | nil =>
    rw [containsSub_nil_eq, Bool.or_false, isPrefixOf_iff]
    constructor
    · rintro ⟨t, ht⟩
      exact ⟨[], t, ht⟩
    · rintro ⟨p, q, hpq⟩
      have h0 := List.append_eq_nil.mp hpq.symm
      have h1 := List.append_eq_nil.mp h0.1
      refine ⟨[], ?_⟩
      rw [h1.2]
      rfl
  | cons c rest ih =>
    rw [containsSub_cons_eq, Bool.or_eq_true, isPrefixOf_iff, ih]
    constructor
    · rintro (⟨t, ht⟩ | ⟨p, q, hpq⟩)
      · exact ⟨[], t, ht⟩
      · exact ⟨c :: p, q, by rw [hpq]; rfl⟩
    · rintro ⟨p, q, hpq⟩
      cases p with
      | nil =>
        left
        exact ⟨q, by simpa using hpq⟩
      | cons x p' =>
        right
        simp only [List.cons_append] at hpq
        injection hpq with h1 h2
        exact ⟨p', q, h2⟩

theorem entryMatches_iff (q : List Nat) (e : Entry) :
    entryMatches q e = true ↔
      ((∃ p t, lowerStr e.website = p ++ q ++ t) ∨
       (∃ p t, lowerStr e.username = p ++ q ++ t) ∨
       (∃ p t, e.category = p ++ q ++ t)) := by
  simp [entryMatches, containsSub_iff, Bool.or_eq_true, or_assoc]

theorem containsSub_nil_needle (hay : List Nat) : containsSub hay [] = true := by
  cases hay <;> rfl

/-- C7 counterexample: for the query `"Bank"` and a stored entry with
website `"x"`, username `"y"` and category `"Bank"`, the claim's predicate
(category contains the query case-sensitively) selects the entry, but
`searchEntries` returns nothing: the code compares the category against the
*lowercased* query `"bank"`. -/
theorem C7_counterexample :
    (searchEntries 0 [66, 97, 110, 107] c7State).1 = [] ∧
    c7State.entries.filter (specMatches [66, 97, 110, 107]) = [c7Entry] := by
  constructor <;> decide

/-- C7 amended: `searchEntries` returns, in original storage order, exactly
the entries whose lowercased website or lowercased username contains the
lowercased query as a substring, or whose category (as stored) contains the
*lowercased* query as a substring; the empty query matches every entry. -/
theorem C7_search_characterization (now : Nat) (q : List Nat) (s : PassVaultState)
    (h : ((checkAutoLock now s).1 || (checkAutoLock now s).2.isLocked) = false) :
    (searchEntries now q s).1 = s.entries.filter (entryMatches (lowerStr q)) ∧
    (∀ e : Entry, entryMatches (lowerStr q) e = true ↔
      ((∃ p t, lowerStr e.website = p ++ lowerStr q ++ t) ∨
       (∃ p t, lowerStr e.username = p ++ lowerStr q ++ t) ∨
       (∃ p t, e.category = p ++ lowerStr q ++ t))) ∧
    (q = [] → (searchEntries now q s).1 = s.entries) := by
  have hmain : (searchEntries now q s).1 = s.entries.filter (entryMatches (lowerStr q)) := by
    simp only [searchEntries, h, Bool.false_eq_true, if_false, checkAutoLock_entries]
  refine ⟨hmain, fun e => entryMatches_iff (lowerStr q) e, ?_⟩
  intro hq
  subst hq
  rw [hmain]
  refine List.filter_eq_self.mpr (fun e _ => ?_)
  show entryMatches (lowerStr []) e = true
  simp [entryMatches, lowerStr, containsSub_nil_needle]

theorem C7_search_characterization_witness :
    (searchEntries 0 [98, 97] c7State).1 =
      c7State.entries.filter (entryMatches (lowerStr [98, 97])) :=
  (C7_search_characterization 0 [98, 97] c7State (by decide)).1

theorem foldl_scanStep (pw : List Nat) : ∀ f : CharFlags,
    pw.foldl scanStep f =
      ⟨f.hasUpper || pw.any isUpperB, f.hasLower || pw.any isLowerB,
       f.hasDigit || pw.any isDigitB, f.hasSpecial || pw.any isPunctB⟩ := by
  induction pw with
  | nil => intro f; simp
  | cons c rest ih =>
    intro f
    show rest.foldl scanStep (scanStep f c) = _
    rw [ih]
    simp [scanStep, Bool.or_assoc]

theorem scanFlags_any (pw : List Nat) :
    scanFlags pw = ⟨pw.any isUpperB, pw.any isLowerB, pw.any isDigitB, pw.any isPunctB⟩ := by
  unfold scanFlags
  rw [foldl_scanStep]
  simp

theorem analyzePassword_score (pw : List Nat) :
    (analyzePassword pw).score =
      (if 8 ≤ pw.length then 20 else 0) + (if 12 ≤ pw.length then 15 else 0) +
      (if 16 ≤ pw.length then 15 else 0) + (if pw.any isUpperB then 15 else 0) +
      (if pw.any isLowerB then 15 else 0) + (if pw.any isDigitB then 10 else 0) +
      (if pw.any isPunctB then 10 else 0) := by
  simp only [analyzePassword]
  rw [scanFlags_any]

theorem analyzePassword_strength (pw : List Nat) :
    (analyzePassword pw).strength = bucketSpec (analyzePassword pw).score := rfl

/-- C9: `analyzePassword`'s score is exactly the sum of the length bonuses
(+20 for length ≥ 8, +15 more for ≥ 12, +15 more for ≥ 16) and the class
bonuses (+15 uppercase present, +15 lowercase, +10 digit, +10 punctuation);
the strength bucket is Weak below 40, Fair below 60, Good below 75, Strong
below 90, else Very Strong; and `analyzePassword("aaaaaaaa")` scores exactly
35 with strength Weak. -/
theorem C9_analyze_spec (pw : List Nat) :
    (analyzePassword pw).score =
      (if 8 ≤ pw.length then 20 else 0) + (if 12 ≤ pw.length then 15 else 0) +
      (if 16 ≤ pw.length then 15 else 0) +
      (if ∃ c ∈ pw, 65 ≤ c ∧ c ≤ 90 then 15 else 0) +
      (if ∃ c ∈ pw, 97 ≤ c ∧ c ≤ 122 then 15 else 0) +
      (if ∃ c ∈ pw, 48 ≤ c ∧ c ≤ 57 then 10 else 0) +
      (if ∃ c ∈ pw, (33 ≤ c ∧ c ≤ 47) ∨ (58 ≤ c ∧ c ≤ 64) ∨ (91 ≤ c ∧ c ≤ 96) ∨
          (123 ≤ c ∧ c ≤ 126) then 10 else 0) ∧
    (analyzePassword pw).strength = bucketSpec (analyzePassword pw).score ∧
    (analyzePassword (List.replicate 8 97)).score = 35 ∧
    (analyzePassword (List.replicate 8 97)).strength = "Weak" := by
  refine ⟨?_, analyzePassword_strength pw, by decide, by decide⟩
  rw [analyzePassword_score]
  have hU : (pw.any isUpperB = true) ↔ ∃ c ∈ pw, 65 ≤ c ∧ c ≤ 90 := by
    simp [List.any_eq_true, isUpperB]
  have hL : (pw.any isLowerB = true) ↔ ∃ c ∈ pw, 97 ≤ c ∧ c ≤ 122 := by
    simp [List.any_eq_true, isLowerB]
  have hD : (pw.any isDigitB = true) ↔ ∃ c ∈ pw, 48 ≤ c ∧ c ≤ 57 := by
    simp [List.any_eq_true, isDigitB]
  have hS : (pw.any isPunctB = true) ↔ ∃ c ∈ pw, (33 ≤ c ∧ c ≤ 47) ∨ (58 ≤ c ∧ c ≤ 64) ∨
      (91 ≤ c ∧ c ≤ 96) ∨ (123 ≤ c ∧ c ≤ 126) := by
    simp [List.any_eq_true, isPunctB]
  rw [if_congr hU rfl rfl, if_congr hL rfl rfl, if_congr hD rfl rfl, if_congr hS rfl rfl]

theorem distinctVals_cons_eq (p : List Nat) (rest : List (List Nat)) :
    distinctVals (p :: rest) =
      p :: (distinctVals rest).filter (fun q => decide (¬ q = p)) := rfl

theorem bumpCount_cons_eq (q : List Nat) (n : Nat) (rest : List (List Nat × Nat))
    (p : List Nat) :
    bumpCount ((q, n) :: rest) p =
      if q = p then (q, n + 1) :: rest else (q, n) :: bumpCount rest p := rfl

theorem mem_distinctVals : ∀ (ps : List (List Nat)) (q : List Nat),
    q ∈ distinctVals ps ↔ q ∈ ps := by
  intro ps
  induction ps with
  | nil => intro q; simp [distinctVals]
  | cons p rest ih =>
    intro q
    simp only [distinctVals_cons_eq, List.mem_cons, List.mem_filter,
      decide_eq_true_eq, ih]
    by_cases hqp : q = p
    · simp [hqp]
    · simp [hqp]

theorem nodup_distinctVals : ∀ ps : List (List Nat), (distinctVals ps).Nodup := by
  intro ps
  induction ps with
  | nil => exact List.nodup_nil
  | cons p rest ih =>
    rw [distinctVals_cons_eq, List.nodup_cons]
    refine ⟨?_, List.Nodup.filter _ ih⟩
    intro hmem
    rw [List.mem_filter] at hmem
    simp at hmem

theorem count_concat (ps : List (List Nat)) (p q : List Nat) :
    (ps ++ [p]).count q = ps.count q + (if q = p then 1 else 0) := by
  rw [List.count_append]
  congr 1
  simp [List.count_cons, List.count_nil]
  by_cases hqp : q = p
  · simp [hqp]
  · simp [hqp, Ne.symm]

theorem distinctVals_concat (ps : List (List Nat)) (p : List Nat) :
    distinctVals (ps ++ [p]) =
      if p ∈ ps then distinctVals ps else distinctVals ps ++ [p] := by
  induction ps with
  | nil => simp [distinctVals]
  | cons q rest ih =>
    rw [List.cons_append, distinctVals_cons_eq, ih, distinctVals_cons_eq]
    by_cases hp : p ∈ rest
    · rw [if_pos hp, if_pos (List.mem_cons_of_mem q hp)]
    · rw [if_neg hp]
      by_cases hpq : p = q
      · rw [if_pos (by rw [hpq]; exact List.mem_cons_self q rest), List.filter_append]
        have hone : [p].filter (fun x => decide (¬ x = q)) = [] := by
          simp [List.filter, hpq]
        rw [hone, List.append_nil]
      · rw [if_neg (by
            intro hmem
            rcases List.mem_cons.mp hmem with h | h
            · exact hpq h
            · exact hp h)]
        have hone : [p].filter (fun x => decide (¬ x = q)) = [p] := by
          simp [List.filter, hpq]
        rw [List.filter_append, hone, List.cons_append]

theorem bumpCount_map_not_mem (K : List (List Nat)) (f : List Nat → Nat) (p : List Nat)
    (hp : p ∉ K) :
    bumpCount (K.map (fun q => (q, f q))) p = K.map (fun q => (q, f q)) ++ [(p, 1)] := by
  induction K with
  | nil => rfl
  | cons q K' ih =>
    have hqp : ¬ q = p := fun h => hp (by rw [h]; exact List.mem_cons_self p K')
    rw [List.map_cons, bumpCount_cons_eq, if_neg hqp,
      ih (fun h => hp (List.mem_cons_of_mem q h)), List.cons_append]

theorem bumpCount_map_mem : ∀ (K : List (List Nat)) (f : List Nat → Nat) (p : List Nat),
    p ∈ K → K.Nodup →
    bumpCount (K.map (fun q => (q, f q))) p =
      K.map (fun q => (q, if q = p then f q + 1 else f q)) := by
  intro K
  induction K with
  | nil => intro f p hp _; simp at hp
  | cons q K' ih =>
    intro f p hp hn
    rw [List.map_cons, List.map_cons, bumpCount_cons_eq]
    by_cases hqp : q = p
    · rw [if_pos hqp, if_pos hqp]
      have hpk : p ∉ K' := by
        rw [← hqp]
        exact (List.nodup_cons.mp hn).1
      congr 1
      apply List.map_congr_left
      intro x hx
      have hxp : ¬ x = p := fun hh => hpk (hh ▸ hx)
      rw [if_neg hxp]
    · rw [if_neg hqp, if_neg hqp]
      have hp' : p ∈ K' := by
        rcases List.mem_cons.mp hp with h | h
        · exact absurd h.symm hqp
        · exact h
      rw [ih f p hp' (List.nodup_cons.mp hn).2]

theorem bumpCount_countsOf (ps : List (List Nat)) (p : List Nat) :
    bumpCount (countsOf ps) p = countsOf (ps ++ [p]) := by
  unfold countsOf
  by_cases hp : p ∈ ps
  · have hpd : p ∈ distinctVals ps := (mem_distinctVals ps p).mpr hp
    rw [bumpCount_map_mem _ _ p hpd (nodup_distinctVals ps), distinctVals_concat,
      if_pos hp]
    apply List.map_congr_left
    intro x hx
    rw [count_concat]
    by_cases hxp : x = p
    · rw [if_pos hxp, if_pos hxp]
    · rw [if_neg hxp, if_neg hxp, Nat.add_zero]
  · have hpd : p ∉ distinctVals ps := fun h => hp ((mem_distinctVals ps p).mp h)
    rw [bumpCount_map_not_mem _ _ p hpd, distinctVals_concat, if_neg hp,
      List.map_append]
    congr 1
    · apply List.map_congr_left
      intro x hx
      rw [count_concat]
      have hxp : ¬ x = p := fun hh =>
        hp (by rw [← hh]; exact (mem_distinctVals ps x).mp hx)
      rw [if_neg hxp, Nat.add_zero]
    · have hz : ps.count p = 0 := List.count_eq_zero.mpr hp
      simp [count_concat, hz]

theorem foldl_bumpCount (ps : List (List Nat)) :
    ps.foldl bumpCount [] = countsOf ps := by
  induction ps using List.reverseRecOn with
  | nil => rfl
  | append_singleton ps p ih =>
    rw [List.foldl_append, List.foldl_cons, List.foldl_nil, ih, bumpCount_countsOf]

theorem foldl_healthStep_counts (now : Nat) :
    ∀ (es : List Entry) (acc : Nat × List (List Nat × Nat) × Nat),
      (es.foldl (healthStep now) acc).2.1 =
        (es.map Entry.password).foldl bumpCount acc.2.1 := by
  intro es
  induction es with
  | nil => intro acc; rfl
  | cons e rest ih =>
    intro acc
    show (rest.foldl (healthStep now) (healthStep now acc e)).2.1 = _
    rw [ih]
    rfl

theorem sumReused_acc : ∀ (m : List (List Nat × Nat)) (a : Nat),
    m.foldl (fun acc p => if 1 < p.2 then acc + p.2 else acc) a =
      a + ((m.filter (fun p => decide (1 < p.2))).map Prod.snd).sum := by
  intro m
  induction m with
  | nil => intro a; simp
  | cons p rest ih =>
    intro a
    show rest.foldl _ (if 1 < p.2 then a + p.2 else a) = _
    rw [ih]
    by_cases h : 1 < p.2
    · simp [List.filter_cons, h]
      omega
    · simp [List.filter_cons, h]

theorem sumReused_countsOf (ps : List (List Nat)) :
    sumReused (countsOf ps) = reusedSpec ps := by
  unfold sumReused reusedSpec countsOf
  rw [sumReused_acc, Nat.zero_add, List.filter_map, List.map_map]
  congr 1

/-- C8: `getHealthReport`'s `reused` field equals the sum, over all distinct
password values occurring more than once, of their occurrence counts (a
password appearing three times contributes 3); on three entries with
passwords "abc123", "abc123", "Tr0ub4dor&9!XyZ" it reports `reused = 2`. -/
theorem C8_reused_spec (now : Nat) (s : PassVaultState) :
    (getHealthReport now s).reused = reusedSpec (s.entries.map Entry.password) ∧
    (getHealthReport 0 c8State).reused = 2 := by
  constructor
  · show sumReused ((s.entries.foldl (healthStep now) (0, [], 0)).2.1) = _
    rw [foldl_healthStep_counts]
    show sumReused ((s.entries.map Entry.password).foldl bumpCount []) = _
    rw [foldl_bumpCount, sumReused_countsOf]
  · decide
